import Mathlib

/-!
Verification of the `SeriesAnalyser` pairs-trading pipeline
(`class_SeriesAnalyser.py`).

Series are modelled as lists of rationals (exact idealisation of the
floating-point price data); quantities that the source obtains through
`np.log` / `np.sqrt` live in `ℝ`.  The external library routine
`adfuller` (statsmodels) is an opaque collaborator and is modelled as a
parameter producing a `t`-statistic, a `p`-value and critical values.
Ordinary least squares with an intercept (`sm.OLS` on `add_constant`
data, `np.polyfit` of degree 1) is embedded through its closed-form
solution.
-/

namespace PairsTrading

/-- Result record of the augmented Dickey-Fuller test, as consumed by
`check_for_stationarity`: `result[0]` (t-statistic), `result[1]`
(p-value) and `result[4]` (critical values). -/
structure AdfResult where
  t_statistic : ℚ
  p_value : ℚ
  critical_values : ℚ × ℚ × ℚ
deriving DecidableEq

/-- The external `adfuller` routine, abstracted: it turns a series into
an `AdfResult`. -/
abbrev Adfuller := List ℚ → AdfResult

/-- `np.mean` / pandas `.mean()`: arithmetic mean of a list. -/
def npMean (l : List ℚ) : ℚ := l.sum / (l.length : ℚ)

/-- Slope coefficient of the OLS fit of `y` on `x` with an intercept
(`sm.OLS(y, sm.add_constant(x)).fit().params[x.name]`), by the
closed-form least-squares solution. -/
def olsSlope (x y : List ℚ) : ℚ :=
  (List.zipWith (fun a b => (a - npMean x) * (b - npMean y)) x y).sum /
    ((x.map (fun a => (a - npMean x) ^ 2)).sum)

/-- `check_for_stationarity`: wraps the `adfuller` call and repackages
t-statistic, p-value and critical values. -/
def check_for_stationarity (adf : Adfuller) (X : List ℚ) : AdfResult := adf X

/-- The reversion-speed parameter λ fitted inside `calculate_half_life`:
`z_lag = np.roll(z,1); z_lag[0] = 0; z_ret = z - z_lag; z_ret[0] = 0;`
then the slope (`res.params[1]`) of `sm.OLS(z_ret[1:], add_constant(z_lag)[1:])`. -/
def halfLifeLambda (z : List ℚ) : ℚ :=
  let z_lag := 0 :: z.dropLast
  let z_ret := 0 :: (List.zipWith (fun a b => a - b) z z_lag).tail
  olsSlope z_lag.tail z_ret.tail

/-- `calculate_half_life`: `-np.log(2) / res.params[1]`. -/
noncomputable def calculate_half_life (z : List ℚ) : ℝ :=
  -Real.log 2 / ((halfLifeLambda z : ℚ) : ℝ)

/-- Modelled from the spec: the spec (§4.3, §7) mandates that a
non-negative reversion-speed parameter be surfaced as
`NonMeanRevertingError` instead of a returned number; the error type and
the guard are absent from the source.  `none` plays the role of the
raised `NonMeanRevertingError`. -/
noncomputable def calculate_half_life_spec (z : List ℚ) : Option ℝ :=
  if halfLifeLambda z < 0 then some (-Real.log 2 / ((halfLifeLambda z : ℚ) : ℝ)) else none

/-- `zero_crossings`: subtract the mean, then count indices `i` with
`i+1 < len(x)` such that `x[i]*x[i+1] < 0` or `x[i] == 0`. -/
def zero_crossings (x : List ℚ) : ℕ :=
  let y := x.map (fun v => v - npMean x)
  ((List.range x.length).filter (fun i =>
    decide (i + 1 < x.length ∧ (y.getD i 0 * y.getD (i + 1) 0 < 0 ∨ y.getD i 0 = 0)))).length

/-- `np.std`: population standard deviation of a list of reals. -/
noncomputable def np_std (l : List ℝ) : ℝ :=
  Real.sqrt ((l.map (fun x => (x - l.sum / (l.length : ℝ)) ^ 2)).sum / (l.length : ℝ))

/-- `np.subtract(ts[lag:], ts[:-lag])`: the `lag`-lagged difference series. -/
def laggedDiff (ts : List ℝ) (lag : ℕ) : List ℝ :=
  List.zipWith (fun a b => a - b) (ts.drop lag) (ts.take (ts.length - lag))

/-- `np.polyfit(x, y, 1)`: the degree-one least-squares fit, returned as
(slope, intercept) — `poly[0]` is the slope. -/
noncomputable def polyfit1 (x y : List ℝ) : ℝ × ℝ :=
  let n : ℝ := (x.length : ℝ)
  let sx := x.sum
  let sy := y.sum
  let sxy := (List.zipWith (fun a b => a * b) x y).sum
  let sxx := (x.map (fun a => a ^ 2)).sum
  let slope := (n * sxy - sx * sy) / (n * sxx - sx ^ 2)
  (slope, (sy - slope * sx) / n)

/-- `hurst`: `tau = [sqrt(std(subtract(ts[lag:], ts[:-lag]))) for lag in range(2,100)]`,
`poly = polyfit(log(lags), log(tau), 1)`, returns `poly[0] * 2.0`. -/
noncomputable def hurst (ts : List ℝ) : ℝ :=
  let lags := List.range' 2 98
  let tau := lags.map (fun lag => Real.sqrt (np_std (laggedDiff ts lag)))
  let poly := polyfit1 (lags.map (fun lag => Real.log (lag : ℝ))) (tau.map Real.log)
  poly.1 * 2.0

/-- Least-squares slope of a cloud of points, in mean-deviation form; used
by the spec-worded restatement of `hurst`. -/
noncomputable def lsqSlope (pts : List (ℝ × ℝ)) : ℝ :=
  let xbar := (pts.map Prod.fst).sum / (pts.length : ℝ)
  let ybar := (pts.map Prod.snd).sum / (pts.length : ℝ)
  (pts.map (fun p => (p.1 - xbar) * (p.2 - ybar))).sum /
    (pts.map (fun p => (p.1 - xbar) ^ 2)).sum

/-- τ(L) as worded by the spec: the square root of the standard deviation
of the L-lagged difference series. -/
noncomputable def tauSpec (ts : List ℝ) (L : ℕ) : ℝ :=
  Real.sqrt (np_std (laggedDiff ts L))

/-- The Hurst estimator as worded by the spec: for each lag L in
{2,…,99} form τ(L), fit a least-squares line to log τ(L) versus log L,
and return twice the fitted slope. -/
noncomputable def hurst_spec (ts : List ℝ) : ℝ :=
  2 * lsqSlope ((List.range' 2 98).map (fun (L : ℕ) => (Real.log (L : ℝ), Real.log (tauSpec ts L))))

/-- View a rational series as a real series (a spread handed to the
real-valued diagnostics). -/
def castSeries (l : List ℚ) : List ℝ := l.map (fun q => (q : ℝ))

/-- The spread `S2 - b*S1` built inside `check_for_cointegration`, with
`b` the OLS hedge ratio of regressing `S2` on `S1`. -/
def spreadOf (S1 S2 : List ℚ) : List ℚ :=
  List.zipWith (fun y x => y - olsSlope S1 S2 * x) S2 S1

/-- One entry of `coint_stats` in `check_for_cointegration` (the fields
recorded for one regression direction). -/
structure CointStats where
  t_statistic : ℚ
  critical_val : ℚ × ℚ × ℚ
  p_value : ℚ
  coint_coef : ℚ
  zero_cross : ℕ
  half_life : ℤ
  hurst_exponent : ℝ
  spread : List ℚ
  Y_train : List ℚ
  X_train : List ℚ

/-- The record returned by `check_for_cointegration`: the selected
direction's `coint_stats` entry extended with the test-period slices. -/
structure CointResult extends CointStats where
  X_test : List ℚ
  Y_test : List ℚ

/-- The loop body of `check_for_cointegration` for one direction
`(S1, S2)`: regress `S2` on `S1`, build the spread and record all
diagnostics (`half_life` is stored as `int(round(hl))`). -/
noncomputable def cointStat (adf : Adfuller) (S1 S2 : List ℚ) : CointStats :=
  let b := olsSlope S1 S2
  let spread := spreadOf S1 S2
  let stats := check_for_stationarity adf spread
  { t_statistic := stats.t_statistic
    critical_val := stats.critical_values
    p_value := stats.p_value
    coint_coef := b
    zero_cross := zero_crossings spread
    half_life := round (calculate_half_life spread)
    hurst_exponent := hurst (castSeries spread)
    spread := spread
    Y_train := S2
    X_train := S1 }

/-- `check_for_cointegration`: evaluates both directions
`[(X, Y), (Y, X)]` and keeps the entry whose absolute t-statistic is
larger (`if abs(t0) > abs(t1)`), attaching the test slices accordingly. -/
noncomputable def check_for_cointegration (adf : Adfuller)
    (train_series test_series : List ℚ × List ℚ) : CointResult :=
  let coint_stats_0 := cointStat adf train_series.1 train_series.2
  let coint_stats_1 := cointStat adf train_series.2 train_series.1
  if |coint_stats_0.t_statistic| > |coint_stats_1.t_statistic| then
    { toCointStats := coint_stats_0, X_test := test_series.1, Y_test := test_series.2 }
  else
    { toCointStats := coint_stats_1, X_test := test_series.2, Y_test := test_series.1 }

/-- `find_pairs`: double loop `for i in range(n): for j in range(i+1, n)`
over the columns of the train panel, scoring each pair with
`check_for_cointegration` and keeping it only if, in this order, the
p-value is below threshold, the freshly recomputed half-life is at least
`min_half_life`, the recorded zero crossings are at least
`min_zero_crossings`, and the recorded Hurst exponent is below
`hurst_threshold`. -/
noncomputable def find_pairs (adf : Adfuller) (data_train data_test : List (List ℚ))
    (p_value_threshold : ℚ) (min_half_life : ℝ) (min_zero_crossings : ℕ)
    (hurst_threshold : ℝ) : List (ℕ × ℕ × CointResult) :=
  let n := data_train.length
  (List.range n).foldl (fun pairs i =>
    (List.range' (i + 1) (n - (i + 1))).foldl (fun pairs j =>
      let S1_train := data_train.getD i []
      let S2_train := data_train.getD j []
      let S1_test := data_test.getD i []
      let S2_test := data_test.getD j []
      let result := check_for_cointegration adf (S1_train, S2_train) (S1_test, S2_test)
      if result.p_value < p_value_threshold then
        if min_half_life ≤ calculate_half_life result.spread then
          if min_zero_crossings ≤ result.zero_cross then
            if result.hurst_exponent < hurst_threshold then
              pairs ++ [(i, j, result)]
            else pairs
          else pairs
        else pairs
      else pairs) pairs) []

/-- The spread recomputed by `pairs_overlap` from a stored candidate:
an independent OLS fit of `Y_test` on `X_test` and `spread = Y - b*X`. -/
def testSpread (pair : ℕ × ℕ × CointResult) : List ℚ :=
  let X := pair.2.2.X_test
  let Y := pair.2.2.Y_test
  let b := olsSlope X Y
  List.zipWith (fun y x => y - b * x) Y X

/-- `pairs_overlap`: for each stored candidate (with its position in the
input list), re-fit the hedge ratio on the test slices, rebuild the
spread, and re-apply the four filters in the same order, collecting the
surviving pairs and their original indices. -/
noncomputable def pairs_overlap (adf : Adfuller) (pairs : List (ℕ × ℕ × CointResult))
    (p_value_threshold : ℚ) (min_zero_crossings : ℕ) (min_half_life : ℝ)
    (hurst_threshold : ℝ) : List (ℕ × ℕ × CointResult) × List ℕ :=
  pairs.enum.foldl (fun acc ip =>
    let pair := ip.2
    let spread := testSpread pair
    let stats := check_for_stationarity adf spread
    if stats.p_value < p_value_threshold then
      if min_half_life ≤ calculate_half_life spread then
        if min_zero_crossings ≤ zero_crossings spread then
          if hurst (castSeries spread) < hurst_threshold then
            (acc.1 ++ [pair], acc.2 ++ [ip.1])
          else acc
        else acc
      else acc
    else acc) ([], [])

/-- The out-of-sample condition that `pairs_overlap` applies to one
stored candidate. -/
def overlapPass (adf : Adfuller) (p_value_threshold : ℚ) (min_zero_crossings : ℕ)
    (min_half_life : ℝ) (hurst_threshold : ℝ) (pair : ℕ × ℕ × CointResult) : Prop :=
  (adf (testSpread pair)).p_value < p_value_threshold ∧
    min_half_life ≤ calculate_half_life (testSpread pair) ∧
    min_zero_crossings ≤ zero_crossings (testSpread pair) ∧
    hurst (castSeries (testSpread pair)) < hurst_threshold

/-- The enumeration order of `find_pairs`: all `(i, j)` with `i < j < n`,
outer index first. -/
def enumPairs (n : ℕ) : List (ℕ × ℕ) :=
  (List.range n).flatMap (fun i => (List.range' (i + 1) (n - (i + 1))).map (fun j => (i, j)))

/-- A stationarity tester reporting the same statistics for every
spread (an exact tie between the two regression directions). -/
def adfTie : Adfuller := fun _ => ⟨-2, 1/100, (0, 0, 0)⟩

/-- A stationarity tester whose t-statistic is the first entry of the
spread (used to build direction-dependent statistics). -/
def adfHead : Adfuller := fun l => ⟨l.headD 0, 0, (0, 0, 0)⟩

/-- A stationarity tester whose t-statistic is the fifth entry of the
spread and whose p-value is always 0. -/
def adfFifth : Adfuller := fun l => ⟨l.getD 4 0, 0, (0, 0, 0)⟩

/-- The alternating test signal `[1, -1, 1, -1, …]` of length `N`. -/
def altSeq (N : ℕ) : List ℚ :=
  (List.range N).map (fun i => if i % 2 = 0 then (1 : ℚ) else -1)

/-- The record `find_pairs` computes for the column pair `(i, j)`. -/
noncomputable def pairRecord (adf : Adfuller) (data_train data_test : List (List ℚ))
    (i j : ℕ) : CointResult :=
  check_for_cointegration adf (data_train.getD i [], data_train.getD j [])
    (data_test.getD i [], data_test.getD j [])

/-- The four-filter conjunction applied by `find_pairs` to a scored
pair: p-value below threshold, recomputed half-life at or above the
floor, zero crossings at or above the floor, Hurst exponent below the
ceiling. -/
def passFour (p_value_threshold : ℚ) (min_half_life : ℝ) (min_zero_crossings : ℕ)
    (hurst_threshold : ℝ) (r : CointResult) : Prop :=
  r.p_value < p_value_threshold ∧
    min_half_life ≤ calculate_half_life r.spread ∧
    min_zero_crossings ≤ r.zero_cross ∧
    r.hurst_exponent < hurst_threshold

noncomputable instance (p_value_threshold : ℚ) (min_half_life : ℝ) (min_zero_crossings : ℕ)
    (hurst_threshold : ℝ) (r : CointResult) :
    Decidable (passFour p_value_threshold min_half_life min_zero_crossings hurst_threshold r) := by
  unfold passFour; infer_instance

noncomputable instance (adf : Adfuller) (p_value_threshold : ℚ) (min_zero_crossings : ℕ)
    (min_half_life : ℝ) (hurst_threshold : ℝ) (pair : ℕ × ℕ × CointResult) :
    Decidable (overlapPass adf p_value_threshold min_zero_crossings min_half_life
      hurst_threshold pair) := by
  unfold overlapPass; infer_instance

section FoldLemmas

variable {α β γ : Type}

lemma foldl_eq_append_flatMap (body : List β → α → List β) (g : α → List β)
    (hb : ∀ acc x, body acc x = acc ++ g x) (l : List α) :
    ∀ init : List β, l.foldl body init = init ++ l.flatMap g := by
  induction l with
  | nil => intro init; simp
  | cons a t ih =>
      intro init
      rw [List.foldl_cons, hb, ih, List.flatMap_cons, List.append_assoc]

lemma foldl_pair_eq_append_flatMap (body : List β × List γ → α → List β × List γ)
    (g1 : α → List β) (g2 : α → List γ)
    (hb : ∀ acc x, body acc x = (acc.1 ++ g1 x, acc.2 ++ g2 x)) (l : List α) :
    ∀ init : List β × List γ,
      l.foldl body init = (init.1 ++ l.flatMap g1, init.2 ++ l.flatMap g2) := by
  induction l with
  | nil => intro init; simp
  | cons a t ih =>
      intro init
      rw [List.foldl_cons, hb, ih, List.flatMap_cons, List.flatMap_cons]
      simp [List.append_assoc]

lemma flatMap_ite_eq_filterMap (p : α → Prop) [DecidablePred p] (v : α → β) (l : List α) :
    (l.flatMap fun x => if p x then [v x] else [])
      = l.filterMap fun x => if p x then some (v x) else none := by
  induction l with
  | nil => simp
  | cons a t ih =>
      by_cases h : p a <;> simp [List.flatMap_cons, List.filterMap_cons, h, ih]

lemma filterMap_ite_eq_map_filter (p : α → Prop) [DecidablePred p] (v : α → β) (l : List α) :
    (l.filterMap fun x => if p x then some (v x) else none)
      = (l.filter fun x => decide (p x)).map v := by
  induction l with
  | nil => simp
  | cons a t ih =>
      by_cases h : p a <;> simp [List.filterMap_cons, List.filter_cons, h, ih]

lemma filterMap_flatMap_comm (l : List α) (h : α → List β) (f : β → Option γ) :
    (l.flatMap h).filterMap f = l.flatMap fun a => (h a).filterMap f := by
  induction l with
  | nil => simp
  | cons a t ih => simp [List.flatMap_cons, List.filterMap_append, ih]

end FoldLemmas

/-- `find_pairs` is the filter, by the four-condition conjunction, of the
records attached to the enumerated column pairs, in enumeration order. -/
lemma find_pairs_eq (adf : Adfuller) (data_train data_test : List (List ℚ))
    (p_value_threshold : ℚ) (min_half_life : ℝ) (min_zero_crossings : ℕ)
    (hurst_threshold : ℝ) :
    find_pairs adf data_train data_test p_value_threshold min_half_life
        min_zero_crossings hurst_threshold
      = (enumPairs data_train.length).filterMap (fun ij =>
          if passFour p_value_threshold min_half_life min_zero_crossings hurst_threshold
              (pairRecord adf data_train data_test ij.1 ij.2) then
            some (ij.1, ij.2, pairRecord adf data_train data_test ij.1 ij.2)
          else none) := by
  classical
  have hinner : ∀ (i : ℕ) (init : List (ℕ × ℕ × CointResult)),
      (List.range' (i + 1) (data_train.length - (i + 1))).foldl (fun pairs j =>
        let S1_train := data_train.getD i []
        let S2_train := data_train.getD j []
        let S1_test := data_test.getD i []
        let S2_test := data_test.getD j []
        let result := check_for_cointegration adf (S1_train, S2_train) (S1_test, S2_test)
        if result.p_value < p_value_threshold then
          if min_half_life ≤ calculate_half_life result.spread then
            if min_zero_crossings ≤ result.zero_cross then
              if result.hurst_exponent < hurst_threshold then
                pairs ++ [(i, j, result)]
              else pairs
            else pairs
          else pairs
        else pairs) init
      = init ++ (List.range' (i + 1) (data_train.length - (i + 1))).flatMap (fun j =>
          if passFour p_value_threshold min_half_life min_zero_crossings hurst_threshold
              (pairRecord adf data_train data_test i j) then
            [(i, j, pairRecord adf data_train data_test i j)]
          else []) := by
    intro i init
    refine foldl_eq_append_flatMap _ _ ?_ _ init
    intro acc j
    show (if (pairRecord adf data_train data_test i j).p_value < p_value_threshold then
        if min_half_life ≤ calculate_half_life (pairRecord adf data_train data_test i j).spread then
          if min_zero_crossings ≤ (pairRecord adf data_train data_test i j).zero_cross then
            if (pairRecord adf data_train data_test i j).hurst_exponent < hurst_threshold then
              acc ++ [(i, j, pairRecord adf data_train data_test i j)]
            else acc
          else acc
        else acc
      else acc) = _
    by_cases h1 : (pairRecord adf data_train data_test i j).p_value < p_value_threshold <;>
      by_cases h2 : min_half_life ≤
        calculate_half_life (pairRecord adf data_train data_test i j).spread <;>
      by_cases h3 : min_zero_crossings ≤ (pairRecord adf data_train data_test i j).zero_cross <;>
      by_cases h4 : (pairRecord adf data_train data_test i j).hurst_exponent < hurst_threshold <;>
      simp [passFour, h1, h2, h3, h4]
  have houter : find_pairs adf data_train data_test p_value_threshold min_half_life
      min_zero_crossings hurst_threshold
      = [] ++ (List.range data_train.length).flatMap (fun i =>
          (List.range' (i + 1) (data_train.length - (i + 1))).flatMap (fun j =>
            if passFour p_value_threshold min_half_life min_zero_crossings hurst_threshold
                (pairRecord adf data_train data_test i j) then
              [(i, j, pairRecord adf data_train data_test i j)]
            else [])) := by
    refine foldl_eq_append_flatMap _ _ ?_ _ []
    intro acc i
    exact hinner i acc
  rw [houter, List.nil_append]
  rw [enumPairs, filterMap_flatMap_comm]
  refine List.flatMap_congr ?_
  intro i _
  rw [List.filterMap_map, flatMap_ite_eq_filterMap
    (fun j => passFour p_value_threshold min_half_life min_zero_crossings hurst_threshold
      (pairRecord adf data_train data_test i j))
    (fun j => (i, j, pairRecord adf data_train data_test i j))]
  rfl

/-- `pairs_overlap` filters the enumerated candidates by `overlapPass`,
collecting the surviving candidates and, separately, their indices. -/
lemma pairs_overlap_eq (adf : Adfuller) (pairs : List (ℕ × ℕ × CointResult))
    (p_value_threshold : ℚ) (min_zero_crossings : ℕ) (min_half_life : ℝ)
    (hurst_threshold : ℝ) :
    pairs_overlap adf pairs p_value_threshold min_zero_crossings min_half_life hurst_threshold
      = (pairs.enum.filterMap (fun ip =>
            if overlapPass adf p_value_threshold min_zero_crossings min_half_life
                hurst_threshold ip.2 then some ip.2 else none),
         pairs.enum.filterMap (fun ip =>
            if overlapPass adf p_value_threshold min_zero_crossings min_half_life
                hurst_threshold ip.2 then some ip.1 else none)) := by
  classical
  have hfold : pairs_overlap adf pairs p_value_threshold min_zero_crossings min_half_life
      hurst_threshold
      = (([] : List (ℕ × ℕ × CointResult)) ++ pairs.enum.flatMap (fun ip =>
          if overlapPass adf p_value_threshold min_zero_crossings min_half_life
              hurst_threshold ip.2 then [ip.2] else []),
         ([] : List ℕ) ++ pairs.enum.flatMap (fun ip =>
          if overlapPass adf p_value_threshold min_zero_crossings min_half_life
              hurst_threshold ip.2 then [ip.1] else [])) := by
    refine foldl_pair_eq_append_flatMap _ _ _ ?_ _ ([], [])
    intro acc ip
    show (if (adf (testSpread ip.2)).p_value < p_value_threshold then
        if min_half_life ≤ calculate_half_life (testSpread ip.2) then
          if min_zero_crossings ≤ zero_crossings (testSpread ip.2) then
            if hurst (castSeries (testSpread ip.2)) < hurst_threshold then
              (acc.1 ++ [ip.2], acc.2 ++ [ip.1])
            else acc
          else acc
        else acc
      else acc) = _
    by_cases h1 : (adf (testSpread ip.2)).p_value < p_value_threshold <;>
      by_cases h2 : min_half_life ≤ calculate_half_life (testSpread ip.2) <;>
      by_cases h3 : min_zero_crossings ≤ zero_crossings (testSpread ip.2) <;>
      by_cases h4 : hurst (castSeries (testSpread ip.2)) < hurst_threshold <;>
      simp [overlapPass, h1, h2, h3, h4]
  rw [hfold]
  rw [List.nil_append, List.nil_append,
    flatMap_ite_eq_filterMap
      (fun ip => overlapPass adf p_value_threshold min_zero_crossings min_half_life
        hurst_threshold ip.2) (fun ip : ℕ × ℕ × ℕ × CointResult => ip.2),
    flatMap_ite_eq_filterMap
      (fun ip => overlapPass adf p_value_threshold min_zero_crossings min_half_life
        hurst_threshold ip.2) (fun ip : ℕ × ℕ × ℕ × CointResult => ip.1)]

/-- Membership in the enumeration: exactly the index pairs `i < j < n`. -/
lemma mem_enumPairs {n i j : ℕ} : (i, j) ∈ enumPairs n ↔ i < j ∧ j < n := by
  simp only [enumPairs, List.mem_flatMap, List.mem_map, List.mem_range, List.mem_range'_1,
    Prod.mk.injEq]
  constructor
  · rintro ⟨a, ha, b, ⟨hb1, hb2⟩, rfl, rfl⟩
    omega
  · rintro ⟨hij, hjn⟩
    exact ⟨i, by omega, j, by omega, rfl, rfl⟩

/-- The enumeration visits each pair at most once. -/
lemma nodup_enumPairs (n : ℕ) : (enumPairs n).Nodup := by
  rw [enumPairs, List.nodup_flatMap]
  constructor
  · intro i _
    exact (List.nodup_range' ..).map (fun a b h => by simpa using congrArg Prod.snd h)
  · refine (List.pairwise_lt_range n).imp ?_
    intro a b hab
    simp only [Function.onFun, List.disjoint_left]
    rintro ⟨x, y⟩ hxa hxb
    rcases List.mem_map.mp hxa with ⟨j, _, hj⟩
    rcases List.mem_map.mp hxb with ⟨k, _, hk⟩
    have : a = x := (Prod.mk.injEq .. ▸ hj).1
    have : b = x := (Prod.mk.injEq .. ▸ hk).1
    omega

section Sanity

example : npMean [1, 2, 3] = 2 := by norm_num [npMean]
example : olsSlope [0, 1, 2] [0, 2, 4] = 2 := by norm_num [olsSlope, npMean]
example : olsSlope [0, 2, 4] [0, 1, 2] = 1/2 := by norm_num [olsSlope, npMean]
example : halfLifeLambda [1, 2, 4, 8, 16] = 1 := by norm_num [halfLifeLambda, olsSlope, npMean]
example : halfLifeLambda [0, 3, 3, 9, 15] = 7/19 := by norm_num [halfLifeLambda, olsSlope, npMean]
example : halfLifeLambda [1, 17/20, 289/400, 4913/8000] = -3/20 := by
  norm_num [halfLifeLambda, olsSlope, npMean]
example : zero_crossings [1, -1, 1, -1, 1] = 4 := by
  norm_num [zero_crossings, npMean, List.range_succ]
example : zero_crossings [0, 3, 3, 9, 15] = 1 := by
  norm_num [zero_crossings, npMean, List.range_succ]
example : enumPairs 3 = [(0, 1), (0, 2), (1, 2)] := by decide
example : spreadOf [1, -1, 1, -1, 1] [1, 2, 4, 8, 16] = [0, 3, 3, 9, 15] := by
  norm_num [spreadOf, olsSlope, npMean]

end Sanity

lemma check_sel_gt (adf : Adfuller) (train_series test_series : List ℚ × List ℚ)
    (h : |(cointStat adf train_series.1 train_series.2).t_statistic| >
      |(cointStat adf train_series.2 train_series.1).t_statistic|) :
    check_for_cointegration adf train_series test_series
      = { toCointStats := cointStat adf train_series.1 train_series.2,
          X_test := test_series.1, Y_test := test_series.2 } := by
  simp only [check_for_cointegration]
  split
  · rfl
  · rename_i hc
    exact absurd h hc

lemma check_sel_le (adf : Adfuller) (train_series test_series : List ℚ × List ℚ)
    (h : |(cointStat adf train_series.1 train_series.2).t_statistic| ≤
      |(cointStat adf train_series.2 train_series.1).t_statistic|) :
    check_for_cointegration adf train_series test_series
      = { toCointStats := cointStat adf train_series.2 train_series.1,
          X_test := test_series.2, Y_test := test_series.1 } := by
  simp only [check_for_cointegration]
  split
  · rename_i hc
    exact absurd hc (not_lt.mpr h)
  · rfl

/-- C1: `check_for_cointegration` evaluates both regression directions
and returns the one whose stationarity t-statistic has the larger
absolute magnitude; the claim's tie rule fails — `abs(t0) > abs(t1)` is
false on an exact tie, so the second-evaluated direction is returned,
not the first.  Shown here on a concrete tie: both directions report the
same t-statistic, yet the result is not the first-evaluated record. -/
theorem claim_C1_counterexample :
    |(cointStat adfTie [0, 1, 2] [0, 2, 4]).t_statistic|
      = |(cointStat adfTie [0, 2, 4] [0, 1, 2]).t_statistic|
    ∧ check_for_cointegration adfTie ([0, 1, 2], [0, 2, 4]) ([5, 5, 5], [6, 6, 6])
      ≠ { toCointStats := cointStat adfTie [0, 1, 2] [0, 2, 4],
          X_test := [5, 5, 5], Y_test := [6, 6, 6] } := by
  constructor
  · rfl
  · have hsel : check_for_cointegration adfTie ([0, 1, 2], [0, 2, 4]) ([5, 5, 5], [6, 6, 6])
        = { toCointStats := cointStat adfTie [0, 2, 4] [0, 1, 2],
            X_test := [6, 6, 6], Y_test := [5, 5, 5] } :=
      check_sel_le adfTie ([0, 1, 2], [0, 2, 4]) ([5, 5, 5], [6, 6, 6]) (le_of_eq rfl)
    rw [hsel]
    intro h
    have hc := congrArg (fun r => r.coint_coef) h
    simp only [cointStat] at hc
    exact absurd hc (by norm_num [olsSlope, npMean])

/-- C1 (amended): `check_for_cointegration` evaluates both regression
directions and returns the direction whose stationarity t-statistic has
the larger absolute magnitude; when the two absolute t-statistics are
exactly equal, the second-evaluated direction is returned. -/
theorem claim_C1 (adf : Adfuller) (train_series test_series : List ℚ × List ℚ) :
    (|(cointStat adf train_series.1 train_series.2).t_statistic| >
        |(cointStat adf train_series.2 train_series.1).t_statistic| →
      check_for_cointegration adf train_series test_series
        = { toCointStats := cointStat adf train_series.1 train_series.2,
            X_test := test_series.1, Y_test := test_series.2 })
    ∧ (|(cointStat adf train_series.1 train_series.2).t_statistic| ≤
        |(cointStat adf train_series.2 train_series.1).t_statistic| →
      check_for_cointegration adf train_series test_series
        = { toCointStats := cointStat adf train_series.2 train_series.1,
            X_test := test_series.2, Y_test := test_series.1 })
    ∧ |(check_for_cointegration adf train_series test_series).t_statistic|
      = max |(cointStat adf train_series.1 train_series.2).t_statistic|
          |(cointStat adf train_series.2 train_series.1).t_statistic| := by
  refine ⟨check_sel_gt adf train_series test_series,
    check_sel_le adf train_series test_series, ?_⟩
  rcases le_or_lt |(cointStat adf train_series.1 train_series.2).t_statistic|
      |(cointStat adf train_series.2 train_series.1).t_statistic| with h | h
  · rw [check_sel_le adf train_series test_series h]
    exact (max_eq_right h).symm
  · rw [check_sel_gt adf train_series test_series h]
    exact (max_eq_left (le_of_lt h)).symm

/-- Witness for C1 at a concrete tie: the hypothesis of the tie branch
holds and the second-evaluated direction is returned. -/
theorem claim_C1_witness :
    |(cointStat adfTie [0, 1, 2] [0, 2, 4]).t_statistic|
      ≤ |(cointStat adfTie [0, 2, 4] [0, 1, 2]).t_statistic|
    ∧ check_for_cointegration adfTie ([0, 1, 2], [0, 2, 4]) ([5, 5, 5], [6, 6, 6])
      = { toCointStats := cointStat adfTie [0, 2, 4] [0, 1, 2],
          X_test := [6, 6, 6], Y_test := [5, 5, 5] } :=
  ⟨le_of_eq rfl,
    (claim_C1 adfTie ([0, 1, 2], [0, 2, 4]) ([5, 5, 5], [6, 6, 6])).2.1 (le_of_eq rfl)⟩

/-- C2: on `z = [1, 2, 4, 8, 16]` the fitted reversion speed is λ = 1 ≥ 0;
the source's `calculate_half_life` nevertheless returns `-ln 2 / 1 = -ln 2`,
a negative number, instead of surfacing `NonMeanRevertingError`; the
spec-modelled guarded version rejects this input. -/
theorem claim_C2_eval :
    halfLifeLambda [1, 2, 4, 8, 16] = 1
    ∧ calculate_half_life [1, 2, 4, 8, 16] = -Real.log 2
    ∧ calculate_half_life [1, 2, 4, 8, 16] < 0
    ∧ calculate_half_life_spec [1, 2, 4, 8, 16] = none := by
  have hl : halfLifeLambda [1, 2, 4, 8, 16] = 1 := by
    norm_num [halfLifeLambda, olsSlope, npMean]
  have hv : calculate_half_life [1, 2, 4, 8, 16] = -Real.log 2 := by
    rw [calculate_half_life, hl]
    norm_num
  refine ⟨hl, hv, ?_, ?_⟩
  · rw [hv]
    have := Real.log_pos (by norm_num : (1 : ℝ) < 2)
    linarith
  · rw [calculate_half_life_spec, hl]
    norm_num

/-- C6: direction selection is claimed order-independent, but on an
exact t-statistic tie the two argument orders select opposite
directions: with identical statistics for both spreads, evaluating
`(A, B)` and `(B, A)` returns records with different hedge ratios. -/
theorem claim_C6_counterexample :
    |(cointStat adfTie [0, 1, 2] [0, 2, 4]).t_statistic|
      = |(cointStat adfTie [0, 2, 4] [0, 1, 2]).t_statistic|
    ∧ check_for_cointegration adfTie ([0, 1, 2], [0, 2, 4]) ([3, 3, 3], [4, 4, 4])
      ≠ check_for_cointegration adfTie ([0, 2, 4], [0, 1, 2]) ([4, 4, 4], [3, 3, 3]) := by
  refine ⟨rfl, ?_⟩
  rw [check_sel_le adfTie ([0, 1, 2], [0, 2, 4]) ([3, 3, 3], [4, 4, 4]) (le_of_eq rfl),
    check_sel_le adfTie ([0, 2, 4], [0, 1, 2]) ([4, 4, 4], [3, 3, 3]) (le_of_eq rfl)]
  intro h
  have hc := congrArg (fun r => r.coint_coef) h
  simp only [cointStat] at hc
  exact absurd hc (by norm_num [olsSlope, npMean])

/-- C6 (amended): whenever the two directions' absolute t-statistics
differ, evaluating `(A, B)` and `(B, A)` (with test slices swapped the
same way) yields the same canonical record; on an exact tie the two
argument orders select opposite directions. -/
theorem claim_C6 (adf : Adfuller) (A B a b : List ℚ)
    (h : |(cointStat adf A B).t_statistic| ≠ |(cointStat adf B A).t_statistic|) :
    check_for_cointegration adf (A, B) (a, b) = check_for_cointegration adf (B, A) (b, a) := by
  rcases h.lt_or_lt with hlt | hlt
  · rw [check_sel_le adf (A, B) (a, b) (le_of_lt hlt),
      check_sel_gt adf (B, A) (b, a) hlt]
  · rw [check_sel_gt adf (A, B) (a, b) hlt,
      check_sel_le adf (B, A) (b, a) (le_of_lt hlt)]

/-- Witness for C6: a concrete input whose two directions have distinct
absolute t-statistics, on which both argument orders agree. -/
theorem claim_C6_witness :
    |(cointStat adfHead [0, 1, 2] [1, 3, 4]).t_statistic|
      ≠ |(cointStat adfHead [1, 3, 4] [0, 1, 2]).t_statistic|
    ∧ check_for_cointegration adfHead ([0, 1, 2], [1, 3, 4]) ([7], [8])
      = check_for_cointegration adfHead ([1, 3, 4], [0, 1, 2]) ([8], [7]) := by
  have h : |(cointStat adfHead [0, 1, 2] [1, 3, 4]).t_statistic|
      ≠ |(cointStat adfHead [1, 3, 4] [0, 1, 2]).t_statistic| := by
    have h1 : (cointStat adfHead [0, 1, 2] [1, 3, 4]).t_statistic = 1 := by
      simp only [cointStat, check_for_stationarity, adfHead]
      norm_num [spreadOf, olsSlope, npMean]
    have h2 : (cointStat adfHead [1, 3, 4] [0, 1, 2]).t_statistic = -(9/14) := by
      simp only [cointStat, check_for_stationarity, adfHead]
      norm_num [spreadOf, olsSlope, npMean]
    rw [h1, h2, abs_one, abs_neg, abs_of_nonneg (by norm_num : (0 : ℚ) ≤ 9/14)]
    norm_num
  exact ⟨h, claim_C6 adfHead [0, 1, 2] [1, 3, 4] [7] [8] h⟩

/-- C3: `find_pairs` scores every enumerated column pair and keeps
exactly those passing the four-filter conjunction — p-value below
threshold, then recomputed half-life at or above the floor, then zero
crossings at or above the floor, then Hurst exponent below the ceiling
(the nested `if`s of the source short-circuit in that fixed order) — in
enumeration order over the unordered pairs `i < j`, each visited once;
`pairs_overlap` re-checks its candidates with the same four-filter chain
in input order, with strictly increasing surviving indices. -/
theorem claim_C3 (adf : Adfuller) (data_train data_test : List (List ℚ))
    (p_value_threshold : ℚ) (min_half_life : ℝ) (min_zero_crossings : ℕ)
    (hurst_threshold : ℝ) (candidates : List (ℕ × ℕ × CointResult)) :
    (find_pairs adf data_train data_test p_value_threshold min_half_life
        min_zero_crossings hurst_threshold
      = (enumPairs data_train.length).filterMap (fun ij =>
          if passFour p_value_threshold min_half_life min_zero_crossings hurst_threshold
              (pairRecord adf data_train data_test ij.1 ij.2) then
            some (ij.1, ij.2, pairRecord adf data_train data_test ij.1 ij.2)
          else none))
    ∧ (∀ i j : ℕ, (i, j) ∈ enumPairs data_train.length ↔ i < j ∧ j < data_train.length)
    ∧ (enumPairs data_train.length).Nodup
    ∧ (pairs_overlap adf candidates p_value_threshold min_zero_crossings min_half_life
        hurst_threshold).1
      = candidates.enum.filterMap (fun ip =>
          if overlapPass adf p_value_threshold min_zero_crossings min_half_life
              hurst_threshold ip.2 then some ip.2 else none)
    ∧ List.Pairwise (· < ·)
        (pairs_overlap adf candidates p_value_threshold min_zero_crossings min_half_life
          hurst_threshold).2 := by
  refine ⟨find_pairs_eq adf data_train data_test p_value_threshold min_half_life
      min_zero_crossings hurst_threshold,
    fun i j => mem_enumPairs, nodup_enumPairs data_train.length, ?_, ?_⟩
  · rw [pairs_overlap_eq]
  · rw [pairs_overlap_eq]
    rw [filterMap_ite_eq_map_filter (fun ip : ℕ × ℕ × ℕ × CointResult =>
      overlapPass adf p_value_threshold min_zero_crossings min_half_life hurst_threshold ip.2)
      Prod.fst]
    have hsub : List.Sublist ((candidates.enum.filter (fun ip =>
        decide (overlapPass adf p_value_threshold min_zero_crossings min_half_life
          hurst_threshold ip.2))).map Prod.fst) (candidates.enum.map Prod.fst) :=
      (List.filter_sublist _).map Prod.fst
    rw [List.enum_map_fst] at hsub
    exact (List.pairwise_lt_range _).sublist hsub

/-- C5: `pairs_overlap` re-fits the hedge ratio by an independent OLS
regression on the stored test-period slices (`testSpread` is built from
`X_test`/`Y_test` only, not from the train-period ratio), recomputes the
spread and all diagnostics on that window, re-applies the four-filter
test, and returns exactly the passing candidates together with their
original indices in the input list. -/
theorem claim_C5 (adf : Adfuller) (candidates : List (ℕ × ℕ × CointResult))
    (p_value_threshold : ℚ) (min_zero_crossings : ℕ) (min_half_life : ℝ)
    (hurst_threshold : ℝ) :
    ((pairs_overlap adf candidates p_value_threshold min_zero_crossings min_half_life
        hurst_threshold).1
      = candidates.enum.filterMap (fun ip =>
          if (adf (testSpread ip.2)).p_value < p_value_threshold ∧
              min_half_life ≤ calculate_half_life (testSpread ip.2) ∧
              min_zero_crossings ≤ zero_crossings (testSpread ip.2) ∧
              hurst (castSeries (testSpread ip.2)) < hurst_threshold then
            some ip.2 else none))
    ∧ ((pairs_overlap adf candidates p_value_threshold min_zero_crossings min_half_life
        hurst_threshold).2
      = candidates.enum.filterMap (fun ip =>
          if (adf (testSpread ip.2)).p_value < p_value_threshold ∧
              min_half_life ≤ calculate_half_life (testSpread ip.2) ∧
              min_zero_crossings ≤ zero_crossings (testSpread ip.2) ∧
              hurst (castSeries (testSpread ip.2)) < hurst_threshold then
            some ip.1 else none))
    ∧ (∀ pair : ℕ × ℕ × CointResult,
        testSpread pair
          = List.zipWith (fun y x => y - olsSlope pair.2.2.X_test pair.2.2.Y_test * x)
              pair.2.2.Y_test pair.2.2.X_test) := by
  refine ⟨?_, ?_, fun pair => rfl⟩
  · rw [pairs_overlap_eq]
    simp only [overlapPass]
  · rw [pairs_overlap_eq]
    simp only [overlapPass]

lemma getD_map_demean (x : List ℚ) (c : ℚ) (i : ℕ) (hi : i < x.length) :
    (x.map (fun v => v - c)).getD i 0 = x.getD i 0 - c := by
  rw [List.getD_eq_getElem?_getD, List.getD_eq_getElem?_getD, List.getElem?_map,
    List.getElem?_eq_getElem hi]
  rfl

/-- C8: `zero_crossings` subtracts the mean and counts the adjacent
index pairs in which the product of the demeaned neighbours is negative
(a sign change) or the earlier value equals the mean exactly — stated
here directly against the original signal and its mean. -/
theorem claim_C8 (x : List ℚ) :
    zero_crossings x
      = ((List.range x.length).filter (fun i =>
          decide (i + 1 < x.length ∧
            ((x.getD i 0 - npMean x) * (x.getD (i + 1) 0 - npMean x) < 0
              ∨ x.getD i 0 = npMean x)))).length := by
  simp only [zero_crossings]
  congr 1
  refine List.filter_congr ?_
  intro i hi
  rw [List.mem_range] at hi
  rw [decide_eq_decide]
  by_cases hlt : i + 1 < x.length
  · rw [getD_map_demean x (npMean x) i (by omega), getD_map_demean x (npMean x) (i + 1) hlt]
    simp [hlt, sub_eq_zero]
  · simp [hlt]

lemma altSeq_sum (N : ℕ) : (altSeq N).sum = if N % 2 = 0 then 0 else 1 := by
  induction N with
  | zero => simp [altSeq]
  | succ n ih =>
      rw [altSeq, List.range_succ, List.map_append, List.sum_append]
      have ihr : (List.map (fun i => if i % 2 = 0 then (1 : ℚ) else -1) (List.range n)).sum
          = if n % 2 = 0 then 0 else 1 := ih
      rw [ihr]
      rcases Nat.mod_two_eq_zero_or_one n with h | h
      · have h2 : (n + 1) % 2 = 1 := by omega
        simp [h, h2]
      · have h2 : (n + 1) % 2 = 0 := by omega
        simp [h, h2]

lemma altSeq_length (N : ℕ) : (altSeq N).length = N := by simp [altSeq]

lemma altSeq_getD (N i : ℕ) (hi : i < N) :
    (altSeq N).getD i 0 = if i % 2 = 0 then 1 else -1 := by
  rw [altSeq, List.getD_eq_getElem?_getD, List.getElem?_map, List.getElem?_range hi]
  rfl

/-- C9: on the deterministic alternating sequence `[1, -1, 1, -1, …]` of
length `N ≥ 2`, `zero_crossings` counts every adjacent pair, returning
`N - 1`. -/
theorem claim_C9 (N : ℕ) (hN : 2 ≤ N) : zero_crossings (altSeq N) = N - 1 := by
  obtain ⟨M, rfl⟩ : ∃ M, N = M + 1 := ⟨N - 1, by omega⟩
  have hμ0 : 0 ≤ npMean (altSeq (M + 1)) := by
    rw [npMean, altSeq_sum, altSeq_length]
    rcases Nat.mod_two_eq_zero_or_one (M + 1) with h | h
    · simp [h]
    · rw [if_neg (by omega)]
      positivity
  have hμh : npMean (altSeq (M + 1)) ≤ 1 / 2 := by
    rw [npMean, altSeq_sum, altSeq_length]
    have hcast : (2 : ℚ) ≤ ((M + 1 : ℕ) : ℚ) := by exact_mod_cast hN
    rcases Nat.mod_two_eq_zero_or_one (M + 1) with h | h
    · rw [if_pos h]
      norm_num
    · rw [if_neg (by omega), div_le_div_iff₀ (by linarith) (by norm_num)]
      linarith
  have hprod : ∀ i, i + 1 < M + 1 →
      ((altSeq (M + 1)).map (fun v => v - npMean (altSeq (M + 1)))).getD i 0 *
        ((altSeq (M + 1)).map (fun v => v - npMean (altSeq (M + 1)))).getD (i + 1) 0 < 0 := by
    intro i hilt
    rw [getD_map_demean _ _ i (by rw [altSeq_length]; omega),
      getD_map_demean _ _ (i + 1) (by rw [altSeq_length]; omega),
      altSeq_getD _ i (by omega), altSeq_getD _ (i + 1) (by omega)]
    rcases Nat.mod_two_eq_zero_or_one i with h | h
    · rw [if_pos h, if_neg (by omega)]
      apply mul_neg_of_pos_of_neg <;> linarith
    · rw [if_neg (by omega), if_pos (by omega)]
      apply mul_neg_of_neg_of_pos <;> linarith
  simp only [zero_crossings, altSeq_length]
  have hfeq : (List.range (M + 1)).filter (fun i =>
        decide (i + 1 < M + 1 ∧
          (((altSeq (M + 1)).map (fun v => v - npMean (altSeq (M + 1)))).getD i 0 *
              ((altSeq (M + 1)).map (fun v => v - npMean (altSeq (M + 1)))).getD (i + 1) 0 < 0
            ∨ ((altSeq (M + 1)).map (fun v => v - npMean (altSeq (M + 1)))).getD i 0 = 0)))
      = (List.range (M + 1)).filter (fun i => decide (i + 1 < M + 1)) := by
    refine List.filter_congr ?_
    intro i hi
    rw [decide_eq_decide]
    by_cases hlt : i + 1 < M + 1
    · simp only [hlt, true_and, iff_true]
      exact Or.inl (hprod i hlt)
    · simp [hlt]
  rw [hfeq, List.range_succ, List.filter_append]
  rw [List.filter_eq_self.mpr (fun a ha => by
    rw [List.mem_range] at ha
    simpa using by omega)]
  simp

/-- Witness for C9 at the concrete odd length `N = 5` (where the mean of
the alternating signal is nonzero): the count is `5 - 1 = 4`. -/
theorem claim_C9_witness : 2 ≤ 5 ∧ zero_crossings (altSeq 5) = 4 :=
  ⟨by decide, claim_C9 5 (by decide)⟩

lemma sum_map_mulshift (l : List (ℝ × ℝ)) (a b : ℝ) :
    (l.map (fun p => (p.1 - a) * (p.2 - b))).sum
      = (l.map (fun p => p.1 * p.2)).sum - a * (l.map Prod.snd).sum
        - b * (l.map Prod.fst).sum + (l.length : ℝ) * (a * b) := by
  induction l with
  | nil => simp
  | cons p t ih =>
      simp only [List.map_cons, List.sum_cons, List.length_cons, ih]
      push_cast
      ring

lemma sum_map_sqshift (l : List (ℝ × ℝ)) (a : ℝ) :
    (l.map (fun p => (p.1 - a) ^ 2)).sum
      = (l.map (fun p => p.1 ^ 2)).sum - 2 * a * (l.map Prod.fst).sum
        + (l.length : ℝ) * a ^ 2 := by
  induction l with
  | nil => simp
  | cons p t ih =>
      simp only [List.map_cons, List.sum_cons, List.length_cons, ih]
      push_cast
      ring

lemma polyfit1_slope_eq (pts : List (ℝ × ℝ)) :
    (polyfit1 (pts.map Prod.fst) (pts.map Prod.snd)).1 = lsqSlope pts := by
  rcases eq_or_ne pts [] with rfl | hne
  · simp [polyfit1, lsqSlope]
  · have hn0 : ((pts.length : ℕ) : ℝ) ≠ 0 := by
      simpa using List.length_eq_zero.not.mpr hne
    simp only [polyfit1, lsqSlope, List.length_map]
    rw [List.zipWith_map, List.zipWith_same]
    rw [show ((pts.map Prod.fst).map fun a => a ^ 2) = pts.map fun p => p.1 ^ 2 from by
      rw [List.map_map]; rfl]
    rw [sum_map_mulshift pts ((pts.map Prod.fst).sum / (pts.length : ℝ))
        ((pts.map Prod.snd).sum / (pts.length : ℝ)),
      sum_map_sqshift pts ((pts.map Prod.fst).sum / (pts.length : ℝ))]
    set n : ℝ := ((pts.length : ℕ) : ℝ) with hn
    set sx := (pts.map Prod.fst).sum with hsx
    set sy := (pts.map Prod.snd).sum with hsy
    set sxy := (pts.map (fun p => p.1 * p.2)).sum with hsxy
    set sxx := (pts.map (fun p => p.1 ^ 2)).sum with hsxx
    have hnum : sxy - sx / n * sy - sy / n * sx + n * (sx / n * (sy / n))
        = (n * sxy - sx * sy) / n := by
      field_simp
      ring
    have hden : sxx - 2 * (sx / n) * sx + n * (sx / n) ^ 2 = (n * sxx - sx ^ 2) / n := by
      field_simp
      ring
    rw [hnum, hden]
    rcases eq_or_ne (n * sxx - sx ^ 2) 0 with hz | hz
    · rw [hz]
      simp
    · field_simp

/-- C7: `hurst` computes, for each lag L in {2,…,99}, the standard
deviation of the L-lagged difference series, takes its square root to
form τ(L), fits a least-squares line to log τ(L) versus log L, and
returns twice the fitted slope: the source computation (`hurst`) equals
the spec-worded restatement (`hurst_spec`) on every input series. -/
theorem claim_C7 (ts : List ℝ) : hurst ts = hurst_spec ts := by
  simp only [hurst, hurst_spec]
  have hfst : ((List.range' 2 98).map
        (fun (L : ℕ) => (Real.log (L : ℝ), Real.log (tauSpec ts L)))).map Prod.fst
      = (List.range' 2 98).map (fun lag => Real.log (lag : ℝ)) := by
    rw [List.map_map]
    rfl
  have hsnd : ((List.range' 2 98).map
        (fun (L : ℕ) => (Real.log (L : ℝ), Real.log (tauSpec ts L)))).map Prod.snd
      = ((List.range' 2 98).map
          (fun lag => Real.sqrt (np_std (laggedDiff ts lag)))).map Real.log := by
    rw [List.map_map, List.map_map]
    rfl
  rw [← hfst, ← hsnd, polyfit1_slope_eq]
  ring

/-- C10: every record built by `check_for_cointegration` stores
`half_life` as the rounded estimate `round(-ln 2 / λ)` of its own
spread, while `find_pairs` enforces the half-life floor on the freshly
recomputed unrounded estimate (every surviving pair satisfies it); the
two can disagree: on the spread `[1, 17/20, 289/400, 4913/8000]` the
stored rounded field is 5 (which meets a floor of 5) while the unrounded
estimate is below 5. -/
theorem claim_C10 :
    (∀ (adf : Adfuller) (train_series test_series : List ℚ × List ℚ),
        (check_for_cointegration adf train_series test_series).half_life
          = round (calculate_half_life
              (check_for_cointegration adf train_series test_series).spread))
    ∧ (∀ (adf : Adfuller) (data_train data_test : List (List ℚ)) (p_value_threshold : ℚ)
        (min_half_life : ℝ) (min_zero_crossings : ℕ) (hurst_threshold : ℝ),
        (find_pairs adf data_train data_test p_value_threshold min_half_life
            min_zero_crossings hurst_threshold).Forall
          (fun t => min_half_life ≤ calculate_half_life t.2.2.spread))
    ∧ round (calculate_half_life [1, 17/20, 289/400, 4913/8000]) = 5
    ∧ calculate_half_life [1, 17/20, 289/400, 4913/8000] < 5 := by
  have hlam : halfLifeLambda [1, 17/20, 289/400, 4913/8000] = -(3/20) := by
    norm_num [halfLifeLambda, olsSlope, npMean]
  have hv : calculate_half_life [1, 17/20, 289/400, 4913/8000] = 20 / 3 * Real.log 2 := by
    rw [calculate_half_life, hlam]
    push_cast
    rw [neg_div_neg_eq, div_div_eq_mul_div]
    ring
  have hgt := Real.log_two_gt_d9
  have hlt := Real.log_two_lt_d9
  refine ⟨?_, ?_, ?_, ?_⟩
  · intro adf train_series test_series
    rcases le_or_lt |(cointStat adf train_series.1 train_series.2).t_statistic|
        |(cointStat adf train_series.2 train_series.1).t_statistic| with h | h
    · rw [check_sel_le adf train_series test_series h]
      simp only [cointStat]
    · rw [check_sel_gt adf train_series test_series h]
      simp only [cointStat]
  · intro adf data_train data_test p_value_threshold min_half_life min_zero_crossings
      hurst_threshold
    rw [List.forall_iff_forall_mem]
    intro t ht
    rw [find_pairs_eq, List.mem_filterMap] at ht
    obtain ⟨ij, _, hsome⟩ := ht
    split at hsome
    · rename_i hp
      cases hsome
      exact hp.2.1
    · exact absurd hsome (by simp)
  · rw [hv, round_eq]
    refine Int.floor_eq_iff.mpr ⟨?_, ?_⟩
    · push_cast
      linarith
    · push_cast
      linarith
  · rw [hv]
    linarith

lemma spreadOf_fifth : spreadOf [1, -1, 1, -1, 1] [1, 2, 4, 8, 16] = [0, 3, 3, 9, 15] := by
  norm_num [spreadOf, olsSlope, npMean]

lemma pairRecord_fifth_eval :
    pairRecord adfFifth [[1, -1, 1, -1, 1], [1, 2, 4, 8, 16]]
        [[1, 1, 1, 1, 1], [2, 2, 2, 2, 2]] 0 1
      = { toCointStats := cointStat adfFifth [1, -1, 1, -1, 1] [1, 2, 4, 8, 16],
          X_test := [1, 1, 1, 1, 1], Y_test := [2, 2, 2, 2, 2] } := by
  have ht0 : (cointStat adfFifth [1, -1, 1, -1, 1] [1, 2, 4, 8, 16]).t_statistic = 15 := by
    simp only [cointStat, check_for_stationarity, adfFifth]
    rw [spreadOf_fifth]
    norm_num
  have ht1 : (cointStat adfFifth [1, 2, 4, 8, 16] [1, -1, 1, -1, 1]).t_statistic = 15/31 := by
    simp only [cointStat, check_for_stationarity, adfFifth]
    norm_num [spreadOf, olsSlope, npMean]
  have hT : |(cointStat adfFifth [1, -1, 1, -1, 1] [1, 2, 4, 8, 16]).t_statistic|
      > |(cointStat adfFifth [1, 2, 4, 8, 16] [1, -1, 1, -1, 1]).t_statistic| := by
    rw [ht0, ht1, abs_of_nonneg (by norm_num : (0 : ℚ) ≤ 15),
      abs_of_nonneg (by norm_num : (0 : ℚ) ≤ 15/31)]
    norm_num
  exact check_sel_gt adfFifth ([1, -1, 1, -1, 1], [1, 2, 4, 8, 16])
    ([1, 1, 1, 1, 1], [2, 2, 2, 2, 2]) hT

lemma half_life_of_explosive_spread : calculate_half_life [0, 3, 3, 9, 15] < 0 ∧
    (-10 : ℝ) ≤ calculate_half_life [0, 3, 3, 9, 15] := by
  have hlam : halfLifeLambda [0, 3, 3, 9, 15] = 7/19 := by
    norm_num [halfLifeLambda, olsSlope, npMean]
  have hv : calculate_half_life [0, 3, 3, 9, 15] = -(19 / 7 * Real.log 2) := by
    rw [calculate_half_life, hlam]
    push_cast
    rw [neg_div, div_div_eq_mul_div]
    ring
  have hgt := Real.log_two_gt_d9
  have hlt := Real.log_two_lt_d9
  constructor
  · rw [hv]
    linarith
  · rw [hv]
    linarith

lemma find_pairs_fifth_eval :
    find_pairs adfFifth [[1, -1, 1, -1, 1], [1, 2, 4, 8, 16]] [[1, 1, 1, 1, 1], [2, 2, 2, 2, 2]]
        1 (-10) 0 (hurst (castSeries [0, 3, 3, 9, 15]) + 1)
      = [(0, 1, pairRecord adfFifth [[1, -1, 1, -1, 1], [1, 2, 4, 8, 16]]
          [[1, 1, 1, 1, 1], [2, 2, 2, 2, 2]] 0 1)] := by
  have hpass : passFour 1 (-10) 0 (hurst (castSeries [0, 3, 3, 9, 15]) + 1)
      (pairRecord adfFifth [[1, -1, 1, -1, 1], [1, 2, 4, 8, 16]]
        [[1, 1, 1, 1, 1], [2, 2, 2, 2, 2]] 0 1) := by
    rw [pairRecord_fifth_eval]
    refine ⟨?_, ?_, ?_, ?_⟩
    · show (cointStat adfFifth [1, -1, 1, -1, 1] [1, 2, 4, 8, 16]).p_value < 1
      simp only [cointStat, check_for_stationarity, adfFifth]
      norm_num
    · show (-10 : ℝ) ≤ calculate_half_life
        (cointStat adfFifth [1, -1, 1, -1, 1] [1, 2, 4, 8, 16]).spread
      have hsp : (cointStat adfFifth [1, -1, 1, -1, 1] [1, 2, 4, 8, 16]).spread
          = [0, 3, 3, 9, 15] := by
        simp only [cointStat]
        exact spreadOf_fifth
      rw [hsp]
      exact half_life_of_explosive_spread.2
    · exact Nat.zero_le _
    · show (cointStat adfFifth [1, -1, 1, -1, 1] [1, 2, 4, 8, 16]).hurst_exponent
        < hurst (castSeries [0, 3, 3, 9, 15]) + 1
      have hh : (cointStat adfFifth [1, -1, 1, -1, 1] [1, 2, 4, 8, 16]).hurst_exponent
          = hurst (castSeries [0, 3, 3, 9, 15]) := by
        simp only [cointStat]
        rw [spreadOf_fifth]
      rw [hh]
      exact lt_add_one _
  rw [find_pairs_eq]
  have henum : enumPairs ([[1, -1, 1, -1, 1], [1, 2, 4, 8, 16]] : List (List ℚ)).length
      = [(0, 1)] := by decide
  rw [henum, List.filterMap_cons, List.filterMap_nil]
  rw [if_pos hpass]

/-- C4: the per-pair error taxonomy claimed by the spec does not exist
in the code — nothing is caught at the `find_pairs`/`pairs_overlap`
boundary.  On a panel whose selected spread has reversion speed
λ = 7/19 ≥ 0 (the case the spec mandates surfacing as
`NonMeanRevertingError` and excluding), `find_pairs` instead keeps the
pair, carrying a negative half-life, while the spec-modelled guarded
half-life rejects the spread. -/
theorem claim_C4_eval :
    (find_pairs adfFifth [[1, -1, 1, -1, 1], [1, 2, 4, 8, 16]] [[1, 1, 1, 1, 1], [2, 2, 2, 2, 2]]
        1 (-10) 0 (hurst (castSeries [0, 3, 3, 9, 15]) + 1)).map (fun t => (t.1, t.2.1))
      = [(0, 1)]
    ∧ (pairRecord adfFifth [[1, -1, 1, -1, 1], [1, 2, 4, 8, 16]]
        [[1, 1, 1, 1, 1], [2, 2, 2, 2, 2]] 0 1).spread = [0, 3, 3, 9, 15]
    ∧ 0 ≤ halfLifeLambda [0, 3, 3, 9, 15]
    ∧ calculate_half_life [0, 3, 3, 9, 15] < 0
    ∧ calculate_half_life_spec [0, 3, 3, 9, 15] = none := by
  refine ⟨?_, ?_, ?_, half_life_of_explosive_spread.1, ?_⟩
  · rw [find_pairs_fifth_eval]
    rfl
  · rw [pairRecord_fifth_eval]
    simp only [cointStat]
    exact spreadOf_fifth
  · norm_num [halfLifeLambda, olsSlope, npMean]
  · rw [calculate_half_life_spec]
    rw [if_neg]
    rw [show halfLifeLambda [0, 3, 3, 9, 15] = 7/19 from by
      norm_num [halfLifeLambda, olsSlope, npMean]]
    norm_num

end PairsTrading
